import Mathlib

/-!
# BareBones kernel: VGA text-mode terminal driver

A shallow embedding of `BareBones/kernel.c` (target: 32-bit ix86, so `size_t`
is a 32-bit unsigned integer) together with theorems about the cell encoding,
the cursor state machine and the screen-buffer write path.

Conventions of the embedding.

* Unsigned machine integers are natural numbers; every arithmetic result that
  the C code computes in `size_t` is reduced modulo `2 ^ 32`, every conversion
  to `uint16_t` modulo `2 ^ 16`, every conversion to `uint8_t` or
  `unsigned char` modulo `2 ^ 8`.
* A value of type `char` (signed on the target) is an integer; the implicit
  conversion to `unsigned char` at a call of `vga_entry` is `toUChar`.
* Video memory is a total map from cell offsets (relative to `0xB8000`, in
  units of one 16-bit cell) to cell values: a store through `terminal_buffer`
  at any offset lands at that offset.
* A `const char *` argument is the list of the bytes of the object it points
  to.  Reading past the end of that object is undefined in C and is `none`
  here.  An object on the target is smaller than `2 ^ 32` bytes, so the loop
  counters of `strlen` and `terminal_write`, which never exceed the size of
  the object, are not reduced.
-/

namespace Kernel

/-! ## Hardware text mode colour constants -/

def VGA_COLOUR_BLACK : Nat := 0
def VGA_COLOUR_BLUE : Nat := 1
def VGA_COLOUR_GREEN : Nat := 2
def VGA_COLOUR_CYAN : Nat := 3
def VGA_COLOUR_RED : Nat := 4
def VGA_COLOUR_MAGENTA : Nat := 5
def VGA_COLOUR_BROWN : Nat := 6
def VGA_COLOUR_LIGHT_GREY : Nat := 7
def VGA_COLOUR_DARK_GREY : Nat := 8
def VGA_COLOUR_LIGHT_BLUE : Nat := 9
def VGA_COLOUR_LIGHT_GREEN : Nat := 10
def VGA_COLOUR_LIGHT_CYAN : Nat := 11
def VGA_COLOUR_LIGHT_RED : Nat := 12
def VGA_COLOUR_LIGHT_MAGENTA : Nat := 13
def VGA_COLOUR_LIGHT_BROWN : Nat := 14
def VGA_COLOUR_WHITE : Nat := 15

/-! ## Cell encoder -/

/-- Embedding of `vga_entry_colour`: `return fg | bg << 4;`, computed in the
32-bit type of the enumeration and converted to `uint8_t` on return. -/
def vga_entry_colour (fg bg : Nat) : Nat :=
  (fg ||| (bg <<< 4) % 2 ^ 32) % 2 ^ 8

/-- Embedding of `vga_entry`: `return (uint16_t) uc | (uint16_t) color << 8;`,
with both casts and the conversion of the result to `uint16_t`. -/
def vga_entry (uc color : Nat) : Nat :=
  ((uc % 2 ^ 16) ||| ((color % 2 ^ 16) <<< 8)) % 2 ^ 16

/-- Conversion of a `char` value to `unsigned char`, as happens implicitly
when a `char` is passed for the first parameter of `vga_entry`. -/
def toUChar (c : Int) : Nat :=
  (c % 256).toNat

/-! ## Terminal state -/

def VGA_WIDTH : Nat := 80
def VGA_HEIGHT : Nat := 25

/-- The global variables of the driver.  `terminal_buffer` stands for the
memory the pointer of that name designates. -/
structure Terminal where
  terminal_row : Nat
  terminal_column : Nat
  terminal_colour : Nat
  terminal_buffer : Nat → Nat

/-- Store of one cell: `buf[index] = value`. -/
def store (buf : Nat → Nat) (index value : Nat) : Nat → Nat :=
  fun k => if k = index then value else buf k

/-! ## strlen -/

/-- The loop `while (str[len]) len++;` of `strlen`.  The first argument is the
part of the object from `str[len]` on. -/
def strlen_loop : List Int → Nat → Option Nat
  | [], _ => none
  | c :: rest, len => if c ≠ 0 then strlen_loop rest (len + 1) else some len

/-- Embedding of `strlen`. -/
def strlen (str : List Int) : Option Nat :=
  strlen_loop str 0

/-! ## Driver operations -/

/-- The inner loop of `terminal_initialise`, `for (x ...; x < VGA_WIDTH; x++)`,
with `n` iterations left and loop variable `x`. -/
def initialise_columns (colour y : Nat) : Nat → Nat → (Nat → Nat) → (Nat → Nat)
  | 0, _, buf => buf
  | n + 1, x, buf =>
    initialise_columns colour y n (x + 1)
      (store buf ((y * VGA_WIDTH + x) % 2 ^ 32) (vga_entry 32 colour))

/-- The outer loop of `terminal_initialise`, `for (y ...; y < VGA_HEIGHT; y++)`,
with `m` iterations left and loop variable `y`. -/
def initialise_rows (colour : Nat) : Nat → Nat → (Nat → Nat) → (Nat → Nat)
  | 0, _, buf => buf
  | m + 1, y, buf =>
    initialise_rows colour m (y + 1) (initialise_columns colour y VGA_WIDTH 0 buf)

/-- Embedding of `terminal_initialise`.  The character constant is the
space, code 32. -/
def terminal_initialise (s : Terminal) : Terminal :=
  let colour := vga_entry_colour VGA_COLOUR_LIGHT_GREY VGA_COLOUR_BLACK
  { terminal_row := 0
    terminal_column := 0
    terminal_colour := colour
    terminal_buffer := initialise_rows colour VGA_HEIGHT 0 s.terminal_buffer }

/-- Embedding of `terminal_setcolour`. -/
def terminal_setcolour (colour : Nat) (s : Terminal) : Terminal :=
  { s with terminal_colour := colour }

/-- Embedding of `terminal_putentryat`. -/
def terminal_putentryat (c : Int) (colour x y : Nat) (s : Terminal) : Terminal :=
  let index := (y * VGA_WIDTH + x) % 2 ^ 32
  { s with terminal_buffer := store s.terminal_buffer index (vga_entry (toUChar c) colour) }

/-- Embedding of `terminal_putchar`. -/
def terminal_putchar (c : Int) (s : Terminal) : Terminal :=
  let s1 := terminal_putentryat c s.terminal_colour s.terminal_column s.terminal_row s
  let column := (s1.terminal_column + 1) % 2 ^ 32
  if column = VGA_WIDTH then
    let row := (s1.terminal_row + 1) % 2 ^ 32
    if row = VGA_HEIGHT then
      { s1 with terminal_column := 0, terminal_row := 0 }
    else
      { s1 with terminal_column := 0, terminal_row := row }
  else
    { s1 with terminal_column := column }

/-- The loop of `terminal_write`, with `n` iterations left and loop
variable `i`. -/
def terminal_write_loop (data : List Int) : Nat → Nat → Terminal → Option Terminal
  | 0, _, s => some s
  | n + 1, i, s =>
    match data[i]? with
    | some c => terminal_write_loop data n (i + 1) (terminal_putchar c s)
    | none => none

/-- Embedding of `terminal_write`. -/
def terminal_write (data : List Int) (size : Nat) (s : Terminal) : Option Terminal :=
  terminal_write_loop data size 0 s

/-- Embedding of `terminal_writestring`. -/
def terminal_writestring (data : List Int) (s : Terminal) : Option Terminal :=
  match strlen data with
  | some size => terminal_write data size s
  | none => none

/-- Embedding of `kernel_main`.  The string literal is the array of its
characters followed by the terminating zero byte. -/
def kernel_main (s : Terminal) : Option Terminal :=
  terminal_writestring
    [72, 101, 108, 108, 111, 44, 32, 107, 101, 114, 110, 101, 108, 32,
     119, 111, 114, 108, 100, 33, 10, 0]
    (terminal_initialise s)

/-! ## The write path with a guarded store

The driver performs no bounds check.  The definitions of this section repeat
`terminal_putentryat`, `terminal_putchar`, `terminal_write`,
`terminal_writestring` and `terminal_initialise` with one addition, a guard
on the store: an offset outside the `80 * 25` cells of the screen yields
`none`.  They serve to state that the guard never fires. -/

/-- The body of `terminal_putentryat` with the store guarded by
`index < VGA_WIDTH * VGA_HEIGHT`. -/
def checked_putentryat (c : Int) (colour x y : Nat) (s : Terminal) : Option Terminal :=
  let index := (y * VGA_WIDTH + x) % 2 ^ 32
  if index < VGA_WIDTH * VGA_HEIGHT then
    some { s with
      terminal_buffer := store s.terminal_buffer index (vga_entry (toUChar c) colour) }
  else
    none

/-- The body of `terminal_putchar` over `checked_putentryat`. -/
def checked_putchar (c : Int) (s : Terminal) : Option Terminal :=
  match checked_putentryat c s.terminal_colour s.terminal_column s.terminal_row s with
  | none => none
  | some s1 =>
    let column := (s1.terminal_column + 1) % 2 ^ 32
    if column = VGA_WIDTH then
      let row := (s1.terminal_row + 1) % 2 ^ 32
      if row = VGA_HEIGHT then
        some { s1 with terminal_column := 0, terminal_row := 0 }
      else
        some { s1 with terminal_column := 0, terminal_row := row }
    else
      some { s1 with terminal_column := column }

/-- The loop of `terminal_write` over `checked_putchar`. -/
def checked_write_loop (data : List Int) : Nat → Nat → Terminal → Option Terminal
  | 0, _, s => some s
  | n + 1, i, s =>
    match data[i]? with
    | some c =>
      match checked_putchar c s with
      | some s1 => checked_write_loop data n (i + 1) s1
      | none => none
    | none => none

/-- The body of `terminal_write` over `checked_putchar`. -/
def checked_write (data : List Int) (size : Nat) (s : Terminal) : Option Terminal :=
  checked_write_loop data size 0 s

/-- The body of `terminal_writestring` over `checked_write`. -/
def checked_writestring (data : List Int) (s : Terminal) : Option Terminal :=
  match strlen data with
  | some size => checked_write data size s
  | none => none

/-- The inner loop of `terminal_initialise` with the store guarded by
`index < VGA_WIDTH * VGA_HEIGHT`. -/
def checked_initialise_columns (colour y : Nat) :
    Nat → Nat → (Nat → Nat) → Option (Nat → Nat)
  | 0, _, buf => some buf
  | n + 1, x, buf =>
    if (y * VGA_WIDTH + x) % 2 ^ 32 < VGA_WIDTH * VGA_HEIGHT then
      checked_initialise_columns colour y n (x + 1)
        (store buf ((y * VGA_WIDTH + x) % 2 ^ 32) (vga_entry 32 colour))
    else
      none

/-- The outer loop of `terminal_initialise` over `checked_initialise_columns`. -/
def checked_initialise_rows (colour : Nat) : Nat → Nat → (Nat → Nat) → Option (Nat → Nat)
  | 0, _, buf => some buf
  | m + 1, y, buf =>
    match checked_initialise_columns colour y VGA_WIDTH 0 buf with
    | some buf1 => checked_initialise_rows colour m (y + 1) buf1
    | none => none

/-- The body of `terminal_initialise` over `checked_initialise_rows`. -/
def checked_initialise (s : Terminal) : Option Terminal :=
  let colour := vga_entry_colour VGA_COLOUR_LIGHT_GREY VGA_COLOUR_BLACK
  match checked_initialise_rows colour VGA_HEIGHT 0 s.terminal_buffer with
  | some buf =>
    some { terminal_row := 0
           terminal_column := 0
           terminal_colour := colour
           terminal_buffer := buf }
  | none => none

/-! ## Auxiliary notions used in the statements -/

/-- The cursor invariant: `0 ≤ column < 80` and `0 ≤ row < 25`. -/
def cursorInRange (s : Terminal) : Prop :=
  s.terminal_column < VGA_WIDTH ∧ s.terminal_row < VGA_HEIGHT

instance (s : Terminal) : Decidable (cursorInRange s) := by
  unfold cursorInRange; infer_instance

/-- Linear position of the cursor, `row * 80 + column`. -/
def cursorOffset (s : Terminal) : Nat :=
  s.terminal_row * VGA_WIDTH + s.terminal_column

/-- Successive `terminal_putchar` calls, one per element of the list, in
order: what the body of the loop of `terminal_write` does to the state. -/
def putchars : List Int → Terminal → Terminal
  | [], s => s
  | c :: rest, s => putchars rest (terminal_putchar c s)

/-- The cursor advance of Put Char as the specification words it, three steps
applied in order to (column, row):
1. column += 1;
2. if column == width: column = 0, row += 1;
3. if row == height: row = 0. -/
def spec_advance (column row : Nat) : Nat × Nat :=
  let column1 := column + 1
  let column2 := if column1 = 80 then 0 else column1
  let row2 := if column1 = 80 then row + 1 else row
  let row3 := if row2 = 25 then 0 else row2
  (column2, row3)

/-- The character codes of the 20 characters of `Hello, kernel world!`, the
text of the string literal of `kernel_main` before its newline. -/
def helloText : List Int :=
  [72, 101, 108, 108, 111, 44, 32, 107, 101, 114, 110, 101, 108, 32,
   119, 111, 114, 108, 100, 33]

/-- A state used to instantiate the theorems: cursor at column 79 of row 24,
attribute `0x1F`, every cell zero. -/
def sampleTerminal : Terminal :=
  { terminal_row := 24, terminal_column := 79, terminal_colour := 31,
    terminal_buffer := fun _ => 0 }

/-! ## Cell encoder: theorems -/

/-- C1: for all palette indices `f, b ≤ 15`, `vga_entry_colour f b` equals
`f | (b << 4)`, fits in one byte, has low nibble `f` and high nibble `b`. -/
theorem vga_entry_colour_packs (f b : Nat) (hf : f ≤ 15) (hb : b ≤ 15) :
    vga_entry_colour f b = f ||| (b <<< 4) ∧
    vga_entry_colour f b < 256 ∧
    vga_entry_colour f b % 16 = f ∧
    vga_entry_colour f b / 16 = b := by
  have key : ∀ f < 16, ∀ b < 16,
      vga_entry_colour f b = f ||| (b <<< 4) ∧
      vga_entry_colour f b < 256 ∧
      vga_entry_colour f b % 16 = f ∧
      vga_entry_colour f b / 16 = b := by
    unfold vga_entry_colour
    decide
  exact key f (by omega) b (by omega)

theorem vga_entry_colour_packs_witness :
    (7 : Nat) ≤ 15 ∧ (1 : Nat) ≤ 15 ∧
    (vga_entry_colour 7 1 = 7 ||| (1 <<< 4) ∧
     vga_entry_colour 7 1 < 256 ∧
     vga_entry_colour 7 1 % 16 = 7 ∧
     vga_entry_colour 7 1 / 16 = 1) :=
  ⟨by decide, by decide, vga_entry_colour_packs 7 1 (by decide) (by decide)⟩

/-- For byte-sized arguments `vga_entry` is `uc + 256 * color`. -/
theorem vga_entry_eq_add (uc color : Nat) (hc : uc < 256) (ha : color < 256) :
    vga_entry uc color = uc + 256 * color := by
  unfold vga_entry
  have h1 : uc % 2 ^ 16 = uc := Nat.mod_eq_of_lt (by omega)
  have h2 : color % 2 ^ 16 = color := Nat.mod_eq_of_lt (by omega)
  have h3 : 2 ^ 8 * color + uc = 2 ^ 8 * color ||| uc :=
    Nat.mul_add_lt_is_or (by omega) color
  rw [h1, h2, Nat.shiftLeft_eq, Nat.or_comm, Nat.mul_comm color, ← h3]
  omega

/-- C2: for a character byte `c` and an attribute byte `a`, `vga_entry c a` is
a 16-bit value whose bits 0-7 are `c` and whose bits 8-15 are `a`; hence the
encoding is injective on bytes. -/
theorem vga_entry_layout (c a : Nat) (hc : c < 256) (ha : a < 256) :
    vga_entry c a < 2 ^ 16 ∧
    vga_entry c a &&& 0xFF = c ∧
    vga_entry c a >>> 8 = a ∧
    (∀ c2 a2 : Nat, c2 < 256 → a2 < 256 →
      vga_entry c2 a2 = vga_entry c a → c2 = c ∧ a2 = a) := by
  have e := vga_entry_eq_add c a hc ha
  have hand : vga_entry c a &&& 0xFF = vga_entry c a % 2 ^ 8 :=
    Nat.and_pow_two_sub_one_eq_mod (vga_entry c a) 8
  refine ⟨by omega, ?_, ?_, ?_⟩
  · rw [hand]; omega
  · rw [Nat.shiftRight_eq_div_pow]; omega
  · intro c2 a2 hc2 ha2 h
    have e2 := vga_entry_eq_add c2 a2 hc2 ha2
    omega

theorem vga_entry_layout_witness :
    (65 : Nat) < 256 ∧ (31 : Nat) < 256 ∧
    (vga_entry 65 31 < 2 ^ 16 ∧
     vga_entry 65 31 &&& 0xFF = 65 ∧
     vga_entry 65 31 >>> 8 = 31 ∧
     (∀ c2 a2 : Nat, c2 < 256 → a2 < 256 →
       vga_entry c2 a2 = vga_entry 65 31 → c2 = 65 ∧ a2 = 31)) :=
  ⟨by decide, by decide, vga_entry_layout 65 31 (by decide) (by decide)⟩

/-! ## Stores and the initialisation loops -/

theorem store_same (buf : Nat → Nat) (i v : Nat) : store buf i v i = v := by
  simp [store]

theorem store_other (buf : Nat → Nat) (i v k : Nat) (h : k ≠ i) :
    store buf i v k = buf k := by
  simp [store, h]

/-- The inner loop of `terminal_initialise` blanks the cells
`y * 80 + x, ..., y * 80 + x + n - 1` and no other. -/
theorem initialise_columns_spec (colour y : Nat) :
    ∀ (n x : Nat) (buf : Nat → Nat) (k : Nat), y * 80 + x + n ≤ 2 ^ 32 →
      initialise_columns colour y n x buf k =
        if y * 80 + x ≤ k ∧ k < y * 80 + x + n then vga_entry 32 colour else buf k := by
  intro n
  induction n with
  | zero =>
    intro x buf k _
    have h0 : ¬ (y * 80 + x ≤ k ∧ k < y * 80 + x + 0) := by omega
    rw [initialise_columns, if_neg h0]
  | succ n ih =>
    intro x buf k h
    have hlt : (y * VGA_WIDTH + x) % 2 ^ 32 = y * 80 + x := by
      simp only [VGA_WIDTH]; exact Nat.mod_eq_of_lt (by omega)
    rw [initialise_columns, ih (x + 1) _ k (by omega), hlt]
    by_cases h1 : y * 80 + (x + 1) ≤ k ∧ k < y * 80 + (x + 1) + n
    · have h2 : y * 80 + x ≤ k ∧ k < y * 80 + x + (n + 1) := by omega
      rw [if_pos h1, if_pos h2]
    · rw [if_neg h1]
      by_cases h3 : k = y * 80 + x
      · have h2 : y * 80 + x ≤ k ∧ k < y * 80 + x + (n + 1) := by omega
        rw [if_pos h2, h3, store_same]
      · have h2 : ¬ (y * 80 + x ≤ k ∧ k < y * 80 + x + (n + 1)) := by omega
        rw [if_neg h2, store_other _ _ _ _ h3]

/-- The outer loop of `terminal_initialise` blanks the rows
`y, ..., y + m - 1` and no other cell. -/
theorem initialise_rows_spec (colour : Nat) :
    ∀ (m y : Nat) (buf : Nat → Nat) (k : Nat), (y + m) * 80 ≤ 2 ^ 32 →
      initialise_rows colour m y buf k =
        if y * 80 ≤ k ∧ k < (y + m) * 80 then vga_entry 32 colour else buf k := by
  intro m
  induction m with
  | zero =>
    intro y buf k _
    have h0 : ¬ (y * 80 ≤ k ∧ k < (y + 0) * 80) := by omega
    rw [initialise_rows, if_neg h0]
  | succ m ih =>
    intro y buf k h
    rw [initialise_rows, ih (y + 1) _ k (by omega),
      initialise_columns_spec colour y VGA_WIDTH 0 buf k (by simp only [VGA_WIDTH]; omega)]
    simp only [VGA_WIDTH]
    by_cases h1 : (y + 1) * 80 ≤ k ∧ k < (y + 1 + m) * 80
    · have h2 : y * 80 ≤ k ∧ k < (y + (m + 1)) * 80 := by omega
      rw [if_pos h1, if_pos h2]
    · rw [if_neg h1]
      by_cases h3 : y * 80 + 0 ≤ k ∧ k < y * 80 + 0 + 80
      · have h2 : y * 80 ≤ k ∧ k < (y + (m + 1)) * 80 := by omega
        rw [if_pos h3, if_pos h2]
      · have h2 : ¬ (y * 80 ≤ k ∧ k < (y + (m + 1)) * 80) := by omega
        rw [if_neg h3, if_neg h2]

/-! ## Put Char At and Initialize -/

/-- C3: for every state, character `c`, attribute `a` and coordinates
`x < 80`, `y < 25`, after `terminal_putentryat c a x y` the cell at offset
`y * 80 + x` holds `vga_entry c a`; in particular, called with the current
attribute, it holds the encoding of `c` under the current attribute. -/
theorem terminal_putentryat_cell (s : Terminal) (c : Int) (a x y : Nat)
    (hx : x < 80) (hy : y < 25) :
    (terminal_putentryat c a x y s).terminal_buffer (y * 80 + x)
      = vga_entry (toUChar c) a ∧
    (terminal_putentryat c s.terminal_colour x y s).terminal_buffer (y * 80 + x)
      = vga_entry (toUChar c) s.terminal_colour := by
  have hlt : (y * VGA_WIDTH + x) % 2 ^ 32 = y * 80 + x := by
    simp only [VGA_WIDTH]; exact Nat.mod_eq_of_lt (by omega)
  simp only [terminal_putentryat, hlt, store_same, and_self]

theorem terminal_putentryat_cell_witness :
    (79 : Nat) < 80 ∧ (24 : Nat) < 25 ∧
    ((terminal_putentryat (-3) 7 79 24 sampleTerminal).terminal_buffer (24 * 80 + 79)
      = vga_entry (toUChar (-3)) 7 ∧
     (terminal_putentryat (-3) sampleTerminal.terminal_colour 79 24
        sampleTerminal).terminal_buffer (24 * 80 + 79)
      = vga_entry (toUChar (-3)) sampleTerminal.terminal_colour) :=
  ⟨by decide, by decide,
    terminal_putentryat_cell sampleTerminal (-3) 7 79 24 (by decide) (by decide)⟩

/-- C4: from every prior state `terminal_initialise` yields row 0, column 0,
attribute `0x07` and the value `vga_entry 32 0x07 = 0x0720` in each of the
2000 cells; two prior states therefore give the same cursor, attribute and
screen contents. -/
theorem terminal_initialise_state (s : Terminal) :
    (terminal_initialise s).terminal_row = 0 ∧
    (terminal_initialise s).terminal_column = 0 ∧
    (terminal_initialise s).terminal_colour = 0x07 ∧
    (∀ k, k < 80 * 25 →
      (terminal_initialise s).terminal_buffer k = vga_entry 32 0x07) ∧
    vga_entry 32 0x07 = 0x0720 ∧
    (∀ t : Terminal,
      (terminal_initialise t).terminal_row = (terminal_initialise s).terminal_row ∧
      (terminal_initialise t).terminal_column = (terminal_initialise s).terminal_column ∧
      (terminal_initialise t).terminal_colour = (terminal_initialise s).terminal_colour ∧
      ∀ k, k < 80 * 25 →
        (terminal_initialise t).terminal_buffer k
          = (terminal_initialise s).terminal_buffer k) := by
  have hc : vga_entry_colour VGA_COLOUR_LIGHT_GREY VGA_COLOUR_BLACK = 0x07 := by decide
  have cells : ∀ (u : Terminal) (k : Nat), k < 80 * 25 →
      (terminal_initialise u).terminal_buffer k = vga_entry 32 0x07 := by
    intro u k hk
    simp only [terminal_initialise, hc]
    rw [initialise_rows_spec 7 VGA_HEIGHT 0 _ k (by simp only [VGA_HEIGHT]; omega)]
    have h2 : 0 * 80 ≤ k ∧ k < (0 + VGA_HEIGHT) * 80 := by
      simp only [VGA_HEIGHT]; omega
    rw [if_pos h2]
  refine ⟨rfl, rfl, hc, cells s, by decide, ?_⟩
  intro t
  refine ⟨rfl, rfl, rfl, ?_⟩
  intro k hk
  rw [cells t k hk, cells s k hk]

theorem terminal_initialise_state_witness :
    (1999 : Nat) < 80 * 25 ∧
    (terminal_initialise sampleTerminal).terminal_buffer 1999 = vga_entry 32 0x07 :=
  ⟨by decide, (terminal_initialise_state sampleTerminal).2.2.2.1 1999 (by decide)⟩

/-! ## Put Char: one step of the cursor state machine -/

theorem terminal_putchar_colour (c : Int) (s : Terminal) :
    (terminal_putchar c s).terminal_colour = s.terminal_colour := by
  unfold terminal_putchar terminal_putentryat
  simp only
  split_ifs <;> rfl

theorem terminal_putchar_buffer (c : Int) (s : Terminal) :
    (terminal_putchar c s).terminal_buffer =
      store s.terminal_buffer ((s.terminal_row * VGA_WIDTH + s.terminal_column) % 2 ^ 32)
        (vga_entry (toUChar c) s.terminal_colour) := by
  unfold terminal_putchar terminal_putentryat
  simp only
  split_ifs <;> rfl

/-- The cursor after `terminal_putchar`, from a state with the cursor in
range. -/
theorem terminal_putchar_cursor (c : Int) (s : Terminal) (h : cursorInRange s) :
    (terminal_putchar c s).terminal_column
      = (if s.terminal_column + 1 = 80 then 0 else s.terminal_column + 1) ∧
    (terminal_putchar c s).terminal_row
      = (if s.terminal_column + 1 = 80 then
          (if s.terminal_row + 1 = 25 then 0 else s.terminal_row + 1)
         else s.terminal_row) := by
  obtain ⟨h1, h2⟩ := h
  simp only [VGA_WIDTH, VGA_HEIGHT] at h1 h2
  have e1 : (s.terminal_column + 1) % 2 ^ 32 = s.terminal_column + 1 :=
    Nat.mod_eq_of_lt (by omega)
  have e2 : (s.terminal_row + 1) % 2 ^ 32 = s.terminal_row + 1 :=
    Nat.mod_eq_of_lt (by omega)
  unfold terminal_putchar terminal_putentryat
  simp only [e1, e2, VGA_WIDTH, VGA_HEIGHT]
  split_ifs <;> simp

theorem terminal_putchar_inRange (c : Int) (s : Terminal) (h : cursorInRange s) :
    cursorInRange (terminal_putchar c s) := by
  obtain ⟨e1, e2⟩ := terminal_putchar_cursor c s h
  obtain ⟨h1, h2⟩ := h
  simp only [VGA_WIDTH, VGA_HEIGHT] at h1 h2
  unfold cursorInRange
  rw [e1, e2]
  simp only [VGA_WIDTH, VGA_HEIGHT]
  split_ifs <;> omega

theorem terminal_putchar_offset (c : Int) (s : Terminal) (h : cursorInRange s) :
    cursorOffset (terminal_putchar c s) = (cursorOffset s + 1) % 2000 := by
  obtain ⟨e1, e2⟩ := terminal_putchar_cursor c s h
  obtain ⟨h1, h2⟩ := h
  simp only [VGA_WIDTH, VGA_HEIGHT] at h1 h2
  unfold cursorOffset
  rw [e1, e2]
  simp only [VGA_WIDTH]
  split_ifs <;> omega

/-- In range, the offset computed by `terminal_putchar` is the linear cursor
position and lies inside the screen. -/
theorem cursorOffset_lt (s : Terminal) (h : cursorInRange s) :
    cursorOffset s < 2000 ∧
    (s.terminal_row * VGA_WIDTH + s.terminal_column) % 2 ^ 32 = cursorOffset s := by
  obtain ⟨h1, h2⟩ := h
  simp only [VGA_WIDTH, VGA_HEIGHT] at h1 h2
  unfold cursorOffset
  simp only [VGA_WIDTH]
  constructor
  · omega
  · exact Nat.mod_eq_of_lt (by omega)

/-! ## The loop of Write -/

theorem putchars_inRange : ∀ (l : List Int) (s : Terminal),
    cursorInRange s → cursorInRange (putchars l s)
  | [], _, h => h
  | c :: rest, s, h => putchars_inRange rest _ (terminal_putchar_inRange c s h)

theorem putchars_colour : ∀ (l : List Int) (s : Terminal),
    (putchars l s).terminal_colour = s.terminal_colour
  | [], _ => rfl
  | c :: rest, s => by
    rw [putchars, putchars_colour rest, terminal_putchar_colour]

theorem putchars_offset : ∀ (l : List Int) (s : Terminal), cursorInRange s →
    cursorOffset (putchars l s) = (cursorOffset s + l.length) % 2000
  | [], s, h => by
    have := (cursorOffset_lt s h).1
    simp only [putchars, List.length_nil, Nat.add_zero]
    omega
  | c :: rest, s, h => by
    rw [putchars, putchars_offset rest _ (terminal_putchar_inRange c s h),
      terminal_putchar_offset c s h, List.length_cons]
    omega

/-- Whenever the loop of `terminal_write` finishes, it has called
`terminal_putchar` on `data[i], ..., data[i + n - 1]` in order. -/
theorem terminal_write_loop_some (data : List Int) :
    ∀ (n i : Nat) (s t : Terminal), terminal_write_loop data n i s = some t →
      t = putchars ((data.drop i).take n) s := by
  intro n
  induction n with
  | zero =>
    intro i s t h
    simp only [terminal_write_loop, Option.some.injEq] at h
    simp [putchars, h]
  | succ n ih =>
    intro i s t h
    rw [terminal_write_loop] at h
    by_cases hi : i < data.length
    · rw [List.getElem?_eq_getElem hi] at h
      simp only at h
      rw [List.drop_eq_getElem_cons hi, List.take_succ_cons, putchars]
      exact ih (i + 1) _ t h
    · rw [List.getElem?_eq_none (by omega)] at h
      simp at h

/-- The loop of `terminal_write` finishes when all the bytes it reads lie
inside the object. -/
theorem terminal_write_loop_total (data : List Int) :
    ∀ (n i : Nat) (s : Terminal), i + n ≤ data.length →
      terminal_write_loop data n i s = some (putchars ((data.drop i).take n) s) := by
  intro n
  induction n with
  | zero =>
    intro i s _
    simp [terminal_write_loop, putchars]
  | succ n ih =>
    intro i s h
    have hi : i < data.length := by omega
    rw [terminal_write_loop, List.getElem?_eq_getElem hi]
    simp only
    rw [List.drop_eq_getElem_cons hi, List.take_succ_cons, putchars]
    exact ih (i + 1) _ (by omega)

theorem terminal_write_total (data : List Int) (size : Nat) (s : Terminal)
    (h : size ≤ data.length) :
    terminal_write data size s = some (putchars (data.take size) s) := by
  have := terminal_write_loop_total data size 0 s (by omega)
  simpa [terminal_write] using this

theorem terminal_write_some (data : List Int) (size : Nat) (s t : Terminal)
    (h : terminal_write data size s = some t) :
    t = putchars (data.take size) s := by
  have := terminal_write_loop_some data size 0 s t h
  simpa using this

theorem terminal_write_all (data : List Int) (s : Terminal) :
    terminal_write data data.length s = some (putchars data s) := by
  have := terminal_write_total data data.length s (Nat.le_refl _)
  simpa using this

/-! ## strlen and Write String -/

/-- On an object that contains a zero byte the loop of `strlen` stops at the
first one. -/
theorem strlen_loop_spec : ∀ (l : List Int) (len : Nat), (0 : Int) ∈ l →
    ∃ k, strlen_loop l len = some (len + k) ∧ k < l.length ∧ l[k]? = some 0 ∧
      ∀ j, j < k → ∀ c, l[j]? = some c → c ≠ 0
  | [], _, h => by simp at h
  | c :: rest, len, h => by
    by_cases hc : c = 0
    · refine ⟨0, ?_, ?_, ?_, ?_⟩
      · simp [strlen_loop, hc]
      · simp
      · simp [hc]
      · intro j hj; omega
    · have hrest : (0 : Int) ∈ rest := by
        rcases List.mem_cons.mp h with h0 | h0
        · exact absurd h0.symm hc
        · exact h0
      obtain ⟨k, hk, hlen, hz, hbefore⟩ := strlen_loop_spec rest (len + 1) hrest
      refine ⟨k + 1, ?_, ?_, ?_, ?_⟩
      · rw [strlen_loop, if_pos hc, hk]
        congr 1; omega
      · simp only [List.length_cons]; omega
      · simpa using hz
      · intro j hj d hd
        cases j with
        | zero =>
          simp only [List.getElem?_cons_zero, Option.some.injEq] at hd
          rw [← hd]; exact hc
        | succ j =>
          simp only [List.getElem?_cons_succ] at hd
          exact hbefore j (by omega) d hd

theorem strlen_spec (l : List Int) (h : (0 : Int) ∈ l) :
    ∃ k, strlen l = some k ∧ k < l.length ∧ l[k]? = some 0 ∧
      ∀ j, j < k → ∀ c, l[j]? = some c → c ≠ 0 := by
  obtain ⟨k, hk, rest⟩ := strlen_loop_spec l 0 h
  refine ⟨k, ?_, rest⟩
  simpa [strlen] using hk

/-- Whenever `terminal_writestring` finishes, it is a `terminal_write` of the
same data. -/
theorem terminal_writestring_some (data : List Int) (s t : Terminal)
    (h : terminal_writestring data s = some t) :
    ∃ size, strlen data = some size ∧ terminal_write data size s = some t := by
  unfold terminal_writestring at h
  cases hs : strlen data with
  | none => rw [hs] at h; simp at h
  | some size => rw [hs] at h; exact ⟨size, rfl, h⟩

/-! ## The cursor invariant -/

/-- C5: the cursor invariant `column < 80 ∧ row < 25` holds after
`terminal_initialise` (from any state) and is preserved by
`terminal_setcolour`, `terminal_putentryat`, `terminal_putchar`,
`terminal_write` (which finishes on any byte sequence of any length, and
whenever it finishes with any `size`) and `terminal_writestring` (which
finishes on any sequence holding a zero byte). -/
theorem cursor_invariant (s : Terminal) (h : cursorInRange s) :
    (∀ t : Terminal, cursorInRange (terminal_initialise t)) ∧
    (∀ v : Nat, cursorInRange (terminal_setcolour v s)) ∧
    (∀ (c : Int) (a x y : Nat), cursorInRange (terminal_putentryat c a x y s)) ∧
    (∀ c : Int, cursorInRange (terminal_putchar c s)) ∧
    (∀ data : List Int,
      ∃ t, terminal_write data data.length s = some t ∧ cursorInRange t) ∧
    (∀ (data : List Int) (size : Nat) (t : Terminal),
      terminal_write data size s = some t → cursorInRange t) ∧
    (∀ data : List Int, (0 : Int) ∈ data →
      ∃ t, terminal_writestring data s = some t ∧ cursorInRange t) ∧
    (∀ (data : List Int) (t : Terminal),
      terminal_writestring data s = some t → cursorInRange t) := by
  refine ⟨?_, ?_, ?_, ?_, ?_, ?_, ?_, ?_⟩
  · intro t
    simp [cursorInRange, terminal_initialise, VGA_WIDTH, VGA_HEIGHT]
  · intro v; exact h
  · intro c a x y; exact h
  · intro c; exact terminal_putchar_inRange c s h
  · intro data
    exact ⟨_, terminal_write_all data s, putchars_inRange data s h⟩
  · intro data size t ht
    rw [terminal_write_some data size s t ht]
    exact putchars_inRange _ s h
  · intro data h0
    obtain ⟨k, hk, hlen, _, _⟩ := strlen_spec data h0
    refine ⟨putchars (data.take k) s, ?_, putchars_inRange _ s h⟩
    unfold terminal_writestring
    rw [hk]
    exact terminal_write_total data k s (by omega)
  · intro data t ht
    obtain ⟨size, _, hw⟩ := terminal_writestring_some data s t ht
    rw [terminal_write_some data size s t hw]
    exact putchars_inRange _ s h

theorem cursor_invariant_witness :
    cursorInRange sampleTerminal ∧
    ((∀ t : Terminal, cursorInRange (terminal_initialise t)) ∧
     (∀ v : Nat, cursorInRange (terminal_setcolour v sampleTerminal)) ∧
     (∀ (c : Int) (a x y : Nat),
       cursorInRange (terminal_putentryat c a x y sampleTerminal)) ∧
     (∀ c : Int, cursorInRange (terminal_putchar c sampleTerminal)) ∧
     (∀ data : List Int,
       ∃ t, terminal_write data data.length sampleTerminal = some t ∧ cursorInRange t) ∧
     (∀ (data : List Int) (size : Nat) (t : Terminal),
       terminal_write data size sampleTerminal = some t → cursorInRange t) ∧
     (∀ data : List Int, (0 : Int) ∈ data →
       ∃ t, terminal_writestring data sampleTerminal = some t ∧ cursorInRange t) ∧
     (∀ (data : List Int) (t : Terminal),
       terminal_writestring data sampleTerminal = some t → cursorInRange t)) :=
  ⟨by decide, cursor_invariant sampleTerminal (by decide)⟩

/-- C6: from a state with the cursor in range, `terminal_putchar c` stores
`vga_entry c colour` at offset `row * 80 + column` and leaves the cursor where
the three sequential steps of the specification (`spec_advance`) put it. -/
theorem terminal_putchar_refines_spec (s : Terminal) (c : Int)
    (h : cursorInRange s) :
    (terminal_putchar c s).terminal_buffer (s.terminal_row * 80 + s.terminal_column)
      = vga_entry (toUChar c) s.terminal_colour ∧
    ((terminal_putchar c s).terminal_column, (terminal_putchar c s).terminal_row)
      = spec_advance s.terminal_column s.terminal_row := by
  obtain ⟨e1, e2⟩ := terminal_putchar_cursor c s h
  have hoff := (cursorOffset_lt s h).2
  obtain ⟨h1, h2⟩ := h
  simp only [VGA_WIDTH, VGA_HEIGHT] at h1 h2
  constructor
  · rw [terminal_putchar_buffer, hoff]
    simp only [cursorOffset, VGA_WIDTH, store_same]
  · rw [e1, e2]
    unfold spec_advance
    simp only
    split_ifs <;> first | rfl | omega

theorem terminal_putchar_refines_spec_witness :
    cursorInRange sampleTerminal ∧
    ((terminal_putchar 10 sampleTerminal).terminal_buffer
        (sampleTerminal.terminal_row * 80 + sampleTerminal.terminal_column)
      = vga_entry (toUChar 10) sampleTerminal.terminal_colour ∧
     ((terminal_putchar 10 sampleTerminal).terminal_column,
      (terminal_putchar 10 sampleTerminal).terminal_row)
      = spec_advance sampleTerminal.terminal_column sampleTerminal.terminal_row) :=
  ⟨by decide, terminal_putchar_refines_spec sampleTerminal 10 (by decide)⟩

/-! ## Write: the cells written -/

/-- Cells written by at most 2000 successive `terminal_putchar` calls: the
`i`-th byte lands at offset `(p + i) % 2000`, every other cell is kept. -/
theorem putchars_buffer : ∀ (l : List Int) (s : Terminal), cursorInRange s →
    l.length ≤ 2000 →
    (∀ i c, l[i]? = some c →
      (putchars l s).terminal_buffer ((cursorOffset s + i) % 2000)
        = vga_entry (toUChar c) s.terminal_colour) ∧
    (∀ k, (∀ i, i < l.length → k ≠ (cursorOffset s + i) % 2000) →
      (putchars l s).terminal_buffer k = s.terminal_buffer k)
  | [], s, _, _ => by
    constructor
    · intro i c hc; simp at hc
    · intro k _; rfl
  | d :: rest, s, h, hlen => by
    have hin := terminal_putchar_inRange d s h
    have hoff := terminal_putchar_offset d s h
    have hcol := terminal_putchar_colour d s
    have hbuf := terminal_putchar_buffer d s
    obtain ⟨hp, hidx⟩ := cursorOffset_lt s h
    rw [hidx] at hbuf
    simp only [List.length_cons] at hlen
    obtain ⟨ih1, ih2⟩ := putchars_buffer rest (terminal_putchar d s) hin (by omega)
    rw [hoff, hcol] at ih1
    rw [hoff] at ih2
    constructor
    · intro i c hc
      cases i with
      | zero =>
        simp only [List.getElem?_cons_zero, Option.some.injEq] at hc
        have hk : (cursorOffset s + 0) % 2000 = cursorOffset s := by omega
        rw [putchars, hk, ih2 (cursorOffset s) (by intro j hj; omega), hbuf, store_same, hc]
      | succ j =>
        simp only [List.getElem?_cons_succ] at hc
        have hk : (cursorOffset s + (j + 1)) % 2000
            = ((cursorOffset s + 1) % 2000 + j) % 2000 := by omega
        rw [putchars, hk]
        exact ih1 j c hc
    · intro k hk
      have h0 := hk 0 (by simp)
      have hne : k ≠ cursorOffset s := by omega
      rw [putchars, ih2 k ?_, hbuf, store_other _ _ _ _ hne]
      intro j hj
      have := hk (j + 1) (by simp only [List.length_cons]; omega)
      omega

/-- C7: from a state with the cursor in range at linear position
`p = row * 80 + column` and attribute `a`, `terminal_write` of a byte sequence
of length `n ≤ 2000` finishes; afterwards the cell at offset `(p + i) % 2000`
holds `vga_entry data[i] a` for every `i < n`, and every cell that is not of
that form is unchanged. -/
theorem terminal_write_cells (s : Terminal) (data : List Int)
    (h : cursorInRange s) (hn : data.length ≤ 2000) :
    ∃ t, terminal_write data data.length s = some t ∧
      (∀ i (hi : i < data.length),
        t.terminal_buffer ((s.terminal_row * 80 + s.terminal_column + i) % 2000)
          = vga_entry (toUChar data[i]) s.terminal_colour) ∧
      (∀ k, (∀ i, i < data.length →
              k ≠ (s.terminal_row * 80 + s.terminal_column + i) % 2000) →
        t.terminal_buffer k = s.terminal_buffer k) := by
  obtain ⟨h1, h2⟩ := putchars_buffer data s h hn
  simp only [cursorOffset, VGA_WIDTH] at h1 h2
  refine ⟨putchars data s, terminal_write_all data s, ?_, h2⟩
  intro i hi
  exact h1 i data[i] (List.getElem?_eq_getElem hi)

theorem terminal_write_cells_witness :
    cursorInRange sampleTerminal ∧ [72, 10, -3].length ≤ 2000 ∧
    ∃ t, terminal_write [72, 10, -3] [72, 10, -3].length sampleTerminal = some t ∧
      (∀ i (hi : i < [72, 10, -3].length),
        t.terminal_buffer
            ((sampleTerminal.terminal_row * 80 + sampleTerminal.terminal_column + i) % 2000)
          = vga_entry (toUChar ([72, 10, -3] : List Int)[i]) sampleTerminal.terminal_colour) ∧
      (∀ k, (∀ i, i < [72, 10, -3].length →
              k ≠ (sampleTerminal.terminal_row * 80
                    + sampleTerminal.terminal_column + i) % 2000) →
        t.terminal_buffer k = sampleTerminal.terminal_buffer k) :=
  ⟨by decide, by decide,
    terminal_write_cells sampleTerminal [72, 10, -3] (by decide) (by decide)⟩

/-- C8: on every byte sequence that contains a zero byte, `strlen` returns the
index `k` of the first zero byte (all bytes before it are non-zero), and
`terminal_writestring data` finishes in exactly the state of
`terminal_write data k`, which is the state reached by writing the `k` bytes
before the terminator and nothing else. -/
theorem terminal_writestring_strlen (data : List Int) (h : (0 : Int) ∈ data) :
    ∃ k, strlen data = some k ∧ k < data.length ∧ data[k]? = some 0 ∧
      (∀ j, j < k → ∀ c, data[j]? = some c → c ≠ 0) ∧
      ∀ s : Terminal, ∃ t,
        terminal_writestring data s = some t ∧
        terminal_write data k s = some t ∧
        terminal_write (data.take k) k s = some t ∧
        t = putchars (data.take k) s := by
  obtain ⟨k, hk, hlen, hz, hbefore⟩ := strlen_spec data h
  refine ⟨k, hk, hlen, hz, hbefore, ?_⟩
  intro s
  have hw := terminal_write_total data k s (by omega)
  refine ⟨putchars (data.take k) s, ?_, hw, ?_, rfl⟩
  · unfold terminal_writestring
    rw [hk]
    exact hw
  · have hl : (data.take k).length = k := by
      rw [List.length_take]; omega
    have := terminal_write_all (data.take k) s
    rw [hl] at this
    exact this

theorem terminal_writestring_strlen_witness :
    (0 : Int) ∈ ([72, 105, 0, 33, 0] : List Int) ∧
    ∃ k, strlen [72, 105, 0, 33, 0] = some k ∧
      k < ([72, 105, 0, 33, 0] : List Int).length ∧
      ([72, 105, 0, 33, 0] : List Int)[k]? = some 0 ∧
      (∀ j, j < k → ∀ c, ([72, 105, 0, 33, 0] : List Int)[j]? = some c → c ≠ 0) ∧
      ∀ s : Terminal, ∃ t,
        terminal_writestring [72, 105, 0, 33, 0] s = some t ∧
        terminal_write [72, 105, 0, 33, 0] k s = some t ∧
        terminal_write (([72, 105, 0, 33, 0] : List Int).take k) k s = some t ∧
        t = putchars (([72, 105, 0, 33, 0] : List Int).take k) s :=
  ⟨by decide, terminal_writestring_strlen [72, 105, 0, 33, 0] (by decide)⟩

/-- C9: for every state and attribute `v`, `terminal_setcolour v` sets the
current attribute to `v` and leaves the cursor and every cell unchanged; the
next `terminal_putchar c` stores `vga_entry c v` at the offset of the cursor
(which is `row * 80 + column` when the cursor is in range). -/
theorem terminal_setcolour_frame (s : Terminal) (v : Nat) (c : Int) :
    (terminal_setcolour v s).terminal_colour = v ∧
    (terminal_setcolour v s).terminal_row = s.terminal_row ∧
    (terminal_setcolour v s).terminal_column = s.terminal_column ∧
    (∀ k, (terminal_setcolour v s).terminal_buffer k = s.terminal_buffer k) ∧
    (terminal_putchar c (terminal_setcolour v s)).terminal_buffer
        ((s.terminal_row * 80 + s.terminal_column) % 2 ^ 32)
      = vga_entry (toUChar c) v ∧
    (cursorInRange s →
      (terminal_putchar c (terminal_setcolour v s)).terminal_buffer
          (s.terminal_row * 80 + s.terminal_column)
        = vga_entry (toUChar c) v) := by
  refine ⟨rfl, rfl, rfl, fun _ => rfl, ?_, ?_⟩
  · rw [terminal_putchar_buffer]
    simp only [terminal_setcolour, VGA_WIDTH, store_same]
  · intro h
    have hoff := (cursorOffset_lt s h).2
    simp only [cursorOffset, VGA_WIDTH] at hoff
    rw [terminal_putchar_buffer]
    simp only [terminal_setcolour, VGA_WIDTH, hoff, store_same]

theorem terminal_setcolour_frame_witness :
    (terminal_putchar 65 (terminal_setcolour 0x4E sampleTerminal)).terminal_buffer
        (sampleTerminal.terminal_row * 80 + sampleTerminal.terminal_column)
      = vga_entry (toUChar 65) 0x4E :=
  (terminal_setcolour_frame sampleTerminal 0x4E 65).2.2.2.2.2 (by decide)

/-- C10: for every row `r < 25` and every byte sequence of exactly 80
characters, `terminal_write` started with the cursor at column 0 of row `r`
finishes with the cursor at column 0 of row `r + 1` when `r < 24`, and at
column 0 of row 0 when `r = 24`. -/
theorem terminal_write_full_row (s : Terminal) (data : List Int)
    (hcol : s.terminal_column = 0) (hrow : s.terminal_row < 25)
    (hlen : data.length = 80) :
    ∃ t, terminal_write data data.length s = some t ∧
      t.terminal_column = 0 ∧
      (s.terminal_row < 24 → t.terminal_row = s.terminal_row + 1) ∧
      (s.terminal_row = 24 → t.terminal_row = 0) := by
  have h : cursorInRange s := by
    simp only [cursorInRange, VGA_WIDTH, VGA_HEIGHT]; omega
  have hin := putchars_inRange data s h
  have hoff := putchars_offset data s h
  simp only [cursorInRange, VGA_WIDTH, VGA_HEIGHT] at hin
  simp only [cursorOffset, VGA_WIDTH, hlen, hcol] at hoff
  refine ⟨putchars data s, terminal_write_all data s, ?_, ?_, ?_⟩ <;> omega

theorem terminal_write_full_row_witness :
    (terminal_setcolour 7 (terminal_putchar 33 sampleTerminal)).terminal_column = 0 ∧
    (terminal_setcolour 7 (terminal_putchar 33 sampleTerminal)).terminal_row < 25 ∧
    (List.replicate 80 (42 : Int)).length = 80 ∧
    ∃ t, terminal_write (List.replicate 80 42) (List.replicate 80 (42 : Int)).length
        (terminal_setcolour 7 (terminal_putchar 33 sampleTerminal)) = some t ∧
      t.terminal_column = 0 ∧
      ((terminal_setcolour 7 (terminal_putchar 33 sampleTerminal)).terminal_row < 24 →
        t.terminal_row
          = (terminal_setcolour 7 (terminal_putchar 33 sampleTerminal)).terminal_row + 1) ∧
      ((terminal_setcolour 7 (terminal_putchar 33 sampleTerminal)).terminal_row = 24 →
        t.terminal_row = 0) :=
  ⟨by decide, by decide, by decide,
    terminal_write_full_row (terminal_setcolour 7 (terminal_putchar 33 sampleTerminal))
      (List.replicate 80 42) (by decide) (by decide) (by decide)⟩

/-! ## Short writes and the wrap at the last cell -/

/-- C11: for every row `r < 25` and every byte sequence of length `n < 80`,
`terminal_write` started with the cursor at column 0 of row `r` finishes with
the cursor at column `n` of row `r`. -/
theorem terminal_write_short_row (s : Terminal) (data : List Int)
    (hcol : s.terminal_column = 0) (hrow : s.terminal_row < 25)
    (hlen : data.length < 80) :
    ∃ t, terminal_write data data.length s = some t ∧
      t.terminal_column = data.length ∧
      t.terminal_row = s.terminal_row := by
  have h : cursorInRange s := by
    simp only [cursorInRange, VGA_WIDTH, VGA_HEIGHT]; omega
  have hin := putchars_inRange data s h
  have hoff := putchars_offset data s h
  simp only [cursorInRange, VGA_WIDTH, VGA_HEIGHT] at hin
  simp only [cursorOffset, VGA_WIDTH, hcol] at hoff
  refine ⟨putchars data s, terminal_write_all data s, ?_, ?_⟩ <;> omega

theorem terminal_write_short_row_witness :
    (terminal_putchar 33 sampleTerminal).terminal_column = 0 ∧
    (terminal_putchar 33 sampleTerminal).terminal_row < 25 ∧
    ([72, 105, 10] : List Int).length < 80 ∧
    ∃ t, terminal_write [72, 105, 10] ([72, 105, 10] : List Int).length
        (terminal_putchar 33 sampleTerminal) = some t ∧
      t.terminal_column = ([72, 105, 10] : List Int).length ∧
      t.terminal_row = (terminal_putchar 33 sampleTerminal).terminal_row :=
  ⟨by decide, by decide, by decide,
    terminal_write_short_row (terminal_putchar 33 sampleTerminal) [72, 105, 10]
      (by decide) (by decide) (by decide)⟩

/-- C12: with the cursor at column 79 of row 24, `terminal_putchar c1` moves
the cursor to column 0 of row 0 and changes no cell other than offset 1999
(which receives `vga_entry c1 a`); a following `terminal_putchar c2` stores
`vga_entry c2 a` at offset 0, changes no other cell and moves the cursor to
column 1 of row 0. -/
theorem terminal_putchar_wraps_without_scroll (s : Terminal) (c1 c2 : Int)
    (hcol : s.terminal_column = 79) (hrow : s.terminal_row = 24) :
    (terminal_putchar c1 s).terminal_column = 0 ∧
    (terminal_putchar c1 s).terminal_row = 0 ∧
    (terminal_putchar c1 s).terminal_buffer 1999
      = vga_entry (toUChar c1) s.terminal_colour ∧
    (∀ k, k ≠ 1999 → (terminal_putchar c1 s).terminal_buffer k = s.terminal_buffer k) ∧
    (terminal_putchar c2 (terminal_putchar c1 s)).terminal_buffer 0
      = vga_entry (toUChar c2) s.terminal_colour ∧
    (∀ k, k ≠ 0 → (terminal_putchar c2 (terminal_putchar c1 s)).terminal_buffer k
      = (terminal_putchar c1 s).terminal_buffer k) ∧
    (terminal_putchar c2 (terminal_putchar c1 s)).terminal_column = 1 ∧
    (terminal_putchar c2 (terminal_putchar c1 s)).terminal_row = 0 := by
  have h : cursorInRange s := by
    simp only [cursorInRange, VGA_WIDTH, VGA_HEIGHT]; omega
  obtain ⟨e1, e2⟩ := terminal_putchar_cursor c1 s h
  rw [hcol] at e1 e2
  rw [hrow] at e2
  norm_num at e1 e2
  have h1 : cursorInRange (terminal_putchar c1 s) := terminal_putchar_inRange c1 s h
  obtain ⟨f1, f2⟩ := terminal_putchar_cursor c2 _ h1
  rw [e1] at f1 f2
  rw [e2] at f2
  norm_num at f1 f2
  have b1 := terminal_putchar_buffer c1 s
  have b2 := terminal_putchar_buffer c2 (terminal_putchar c1 s)
  rw [hcol, hrow] at b1
  rw [e1, e2, terminal_putchar_colour] at b2
  have i1 : (24 * VGA_WIDTH + 79) % 2 ^ 32 = 1999 := by decide
  have i2 : (0 * VGA_WIDTH + 0) % 2 ^ 32 = 0 := by decide
  rw [i1] at b1
  rw [i2] at b2
  refine ⟨e1, e2, ?_, ?_, ?_, ?_, ?_, ?_⟩
  · rw [b1, store_same]
  · intro k hk; rw [b1, store_other _ _ _ _ hk]
  · rw [b2, store_same]
  · intro k hk; rw [b2, store_other _ _ _ _ hk]
  · exact f1
  · exact f2

theorem terminal_putchar_wraps_without_scroll_witness :
    sampleTerminal.terminal_column = 79 ∧ sampleTerminal.terminal_row = 24 ∧
    ((terminal_putchar 65 sampleTerminal).terminal_column = 0 ∧
     (terminal_putchar 65 sampleTerminal).terminal_row = 0 ∧
     (terminal_putchar 65 sampleTerminal).terminal_buffer 1999
       = vga_entry (toUChar 65) sampleTerminal.terminal_colour ∧
     (∀ k, k ≠ 1999 →
       (terminal_putchar 65 sampleTerminal).terminal_buffer k
         = sampleTerminal.terminal_buffer k) ∧
     (terminal_putchar 66 (terminal_putchar 65 sampleTerminal)).terminal_buffer 0
       = vga_entry (toUChar 66) sampleTerminal.terminal_colour ∧
     (∀ k, k ≠ 0 →
       (terminal_putchar 66 (terminal_putchar 65 sampleTerminal)).terminal_buffer k
         = (terminal_putchar 65 sampleTerminal).terminal_buffer k) ∧
     (terminal_putchar 66 (terminal_putchar 65 sampleTerminal)).terminal_column = 1 ∧
     (terminal_putchar 66 (terminal_putchar 65 sampleTerminal)).terminal_row = 0) :=
  ⟨by decide, by decide,
    terminal_putchar_wraps_without_scroll sampleTerminal 65 66 (by decide) (by decide)⟩

/-! ## The end-to-end scenario of `kernel_main` -/

/-- After `terminal_initialise` the cursor is in range at linear position 0,
the attribute is `0x07` and the 2000 cells of the screen hold `0x0720`. -/
theorem terminal_initialise_facts (s : Terminal) :
    cursorInRange (terminal_initialise s) ∧
    cursorOffset (terminal_initialise s) = 0 ∧
    (terminal_initialise s).terminal_colour = 7 ∧
    ∀ k, k < 2000 → (terminal_initialise s).terminal_buffer k = 0x0720 := by
  have hc : vga_entry_colour VGA_COLOUR_LIGHT_GREY VGA_COLOUR_BLACK = 7 := by decide
  have hv : vga_entry 32 7 = 0x0720 := by decide
  refine ⟨?_, rfl, hc, ?_⟩
  · simp [cursorInRange, terminal_initialise, VGA_WIDTH, VGA_HEIGHT]
  · intro k hk
    simp only [terminal_initialise, hc]
    rw [initialise_rows_spec 7 VGA_HEIGHT 0 _ k (by simp only [VGA_HEIGHT]; omega)]
    have h2 : 0 * 80 ≤ k ∧ k < (0 + VGA_HEIGHT) * 80 := by
      simp only [VGA_HEIGHT]; omega
    rw [if_pos h2, hv]

/-- What `kernel_main` leaves behind, from any prior state: the 21 bytes of
the literal (20 characters and the newline) in cells 0..20 of row 0 at
attribute `0x07`, blanks in the rest of the screen, cursor at column 21 of
row 0. -/
theorem kernel_main_result (s : Terminal) :
    ∃ t, kernel_main s = some t ∧
      t.terminal_column = 21 ∧ t.terminal_row = 0 ∧ t.terminal_colour = 7 ∧
      (∀ i c, (helloText ++ [10])[i]? = some c →
        t.terminal_buffer i = vga_entry (toUChar c) 7) ∧
      (∀ k, 21 ≤ k → k < 2000 → t.terminal_buffer k = 0x0720) := by
  obtain ⟨hin, hoff, hcol, hcells⟩ := terminal_initialise_facts s
  have hlit : ([72, 101, 108, 108, 111, 44, 32, 107, 101, 114, 110, 101, 108, 32,
      119, 111, 114, 108, 100, 33, 10, 0] : List Int) = helloText ++ [10, 0] := rfl
  have hstr : strlen (helloText ++ [10, 0]) = some 21 := by decide
  have htake : (helloText ++ [10, 0]).take 21 = helloText ++ [10] := by decide
  have hlen : (helloText ++ [10]).length = 21 := by decide
  have hrun : kernel_main s = some (putchars (helloText ++ [10]) (terminal_initialise s)) := by
    unfold kernel_main terminal_writestring
    rw [hlit, hstr]
    simp only
    rw [terminal_write_total _ 21 _ (by decide), htake]
  have hin2 := putchars_inRange (helloText ++ [10]) _ hin
  have hoff2 := putchars_offset (helloText ++ [10]) _ hin
  obtain ⟨hb1, hb2⟩ := putchars_buffer (helloText ++ [10]) _ hin (by rw [hlen]; omega)
  rw [hoff, hlen] at hoff2
  rw [hoff, hcol] at hb1
  rw [hoff, hlen] at hb2
  simp only [cursorInRange, VGA_WIDTH, VGA_HEIGHT] at hin2
  simp only [cursorOffset, VGA_WIDTH] at hoff2
  refine ⟨_, hrun, by omega, by omega, ?_, ?_, ?_⟩
  · rw [putchars_colour, hcol]
  · intro i c hc
    have hi : i < 21 := by
      have := (List.getElem?_eq_some.mp hc).1
      rw [hlen] at this
      exact this
    have := hb1 i c hc
    have hmod : (0 + i) % 2000 = i := by omega
    rw [hmod] at this
    exact this
  · intro k hk1 hk2
    rw [hb2 k (by intro i hi; omega)]
    exact hcells k hk2

/-- C13 (as amended): from any prior state `kernel_main` finishes; cells
(0,0) to (19,0) hold the 20 characters of `Hello, kernel world!` encoded at
attribute `0x07`, cell (20,0) holds the encoded newline byte `0x070A`, every
later cell of the screen is still the blank `0x0720`, and the cursor ends at
column 21 of row 0 (no row advance). -/
theorem kernel_main_scenario (s : Terminal) :
    ∃ t, kernel_main s = some t ∧
      (∀ i c, helloText[i]? = some c →
        t.terminal_buffer (0 * 80 + i) = vga_entry (toUChar c) 0x07) ∧
      helloText.length = 20 ∧
      t.terminal_buffer (0 * 80 + 20) = vga_entry 0x0A 0x07 ∧
      vga_entry 0x0A 0x07 = 0x070A ∧
      (∀ k, 21 ≤ k → k < 2000 → t.terminal_buffer k = 0x0720) ∧
      t.terminal_column = 21 ∧ t.terminal_row = 0 := by
  obtain ⟨t, hrun, hc, hr, _, hcells, hrest⟩ := kernel_main_result s
  refine ⟨t, hrun, ?_, by decide, ?_, by decide, hrest, hc, hr⟩
  · intro i c hic
    have hi : i < helloText.length := (List.getElem?_eq_some.mp hic).1
    have := hcells i c (by rw [List.getElem?_append_left hi]; exact hic)
    simpa using this
  · have := hcells 20 10 (by decide)
    simpa [toUChar] using this

theorem kernel_main_scenario_witness :
    ∃ t, kernel_main sampleTerminal = some t ∧
      t.terminal_buffer (0 * 80 + 0) = vga_entry (toUChar 72) 0x07 ∧
      t.terminal_buffer 1999 = 0x0720 ∧
      t.terminal_column = 21 ∧ t.terminal_row = 0 := by
  obtain ⟨t, hrun, hcells, _, _, _, hrest, hc, hr⟩ := kernel_main_scenario sampleTerminal
  exact ⟨t, hrun, hcells 0 72 (by decide), hrest 1999 (by decide) (by decide), hc, hr⟩

/-- C13, the claim as it stands, refuted on the run of `kernel_main` from
`sampleTerminal`: cell (21,0) holds the blank `0x0720`, not the encoded
newline, and the cursor ends at column 21, not 22. -/
theorem kernel_main_newline_cell_and_cursor :
    ∃ t, kernel_main sampleTerminal = some t ∧
      t.terminal_buffer (0 * 80 + 21) = 0x0720 ∧
      t.terminal_buffer (0 * 80 + 21) ≠ vga_entry 0x0A 0x07 ∧
      t.terminal_column = 21 ∧
      t.terminal_column ≠ 22 := by
  obtain ⟨t, hrun, hc, _, _, _, hrest⟩ := kernel_main_result sampleTerminal
  have h21 := hrest 21 (by decide) (by decide)
  refine ⟨t, hrun, h21, ?_, hc, ?_⟩
  · have hv : vga_entry 0x0A 0x07 = 0x070A := by decide
    show t.terminal_buffer 21 ≠ _
    rw [h21, hv]
    decide
  · rw [hc]; decide

/-! ## Safety of the stores -/

theorem checked_putentryat_eq (c : Int) (colour x y : Nat) (s : Terminal)
    (hx : x < 80) (hy : y < 25) :
    checked_putentryat c colour x y s = some (terminal_putentryat c colour x y s) := by
  have hlt : (y * VGA_WIDTH + x) % 2 ^ 32 = y * 80 + x := by
    simp only [VGA_WIDTH]; exact Nat.mod_eq_of_lt (by omega)
  have hb : y * 80 + x < VGA_WIDTH * VGA_HEIGHT := by
    simp only [VGA_WIDTH, VGA_HEIGHT]; omega
  unfold checked_putentryat terminal_putentryat
  simp only [hlt, if_pos hb]

theorem checked_putchar_eq (c : Int) (s : Terminal) (h : cursorInRange s) :
    checked_putchar c s = some (terminal_putchar c s) := by
  have he := checked_putentryat_eq c s.terminal_colour s.terminal_column s.terminal_row s
    (by simpa [VGA_WIDTH] using h.1) (by simpa [VGA_HEIGHT] using h.2)
  unfold checked_putchar terminal_putchar
  rw [he]
  simp only
  split_ifs <;> rfl

theorem checked_write_loop_eq (data : List Int) :
    ∀ (n i : Nat) (s : Terminal), cursorInRange s →
      checked_write_loop data n i s = terminal_write_loop data n i s := by
  intro n
  induction n with
  | zero => intro i s _; rfl
  | succ n ih =>
    intro i s h
    rw [checked_write_loop, terminal_write_loop]
    cases hd : data[i]? with
    | none => rfl
    | some c =>
      simp only
      rw [checked_putchar_eq c s h]
      exact ih (i + 1) _ (terminal_putchar_inRange c s h)

/-- From a state with the cursor in range, successive `terminal_putchar`
calls never change a cell at an offset of 2000 or more. -/
theorem putchars_outside : ∀ (l : List Int) (s : Terminal), cursorInRange s →
    ∀ k, 2000 ≤ k → (putchars l s).terminal_buffer k = s.terminal_buffer k
  | [], _, _, _, _ => rfl
  | c :: rest, s, h, k, hk => by
    obtain ⟨hp, hidx⟩ := cursorOffset_lt s h
    rw [putchars, putchars_outside rest _ (terminal_putchar_inRange c s h) k hk,
      terminal_putchar_buffer, hidx, store_other _ _ _ _ (by omega)]

theorem checked_initialise_columns_eq (colour y : Nat) :
    ∀ (n x : Nat) (buf : Nat → Nat), y * 80 + x + n ≤ 2000 →
      checked_initialise_columns colour y n x buf
        = some (initialise_columns colour y n x buf) := by
  intro n
  induction n with
  | zero => intro x buf _; rfl
  | succ n ih =>
    intro x buf h
    have hlt : (y * VGA_WIDTH + x) % 2 ^ 32 = y * 80 + x := by
      simp only [VGA_WIDTH]; exact Nat.mod_eq_of_lt (by omega)
    have hb : y * 80 + x < VGA_WIDTH * VGA_HEIGHT := by
      simp only [VGA_WIDTH, VGA_HEIGHT]; omega
    rw [checked_initialise_columns, initialise_columns, hlt, if_pos hb]
    exact ih (x + 1) _ (by omega)

theorem checked_initialise_rows_eq (colour : Nat) :
    ∀ (m y : Nat) (buf : Nat → Nat), (y + m) * 80 ≤ 2000 →
      checked_initialise_rows colour m y buf = some (initialise_rows colour m y buf) := by
  intro m
  induction m with
  | zero => intro y buf _; rfl
  | succ m ih =>
    intro y buf h
    rw [checked_initialise_rows, initialise_rows,
      checked_initialise_columns_eq colour y VGA_WIDTH 0 buf
        (by simp only [VGA_WIDTH]; omega)]
    exact ih (y + 1) _ (by omega)

theorem checked_initialise_eq (s : Terminal) :
    checked_initialise s = some (terminal_initialise s) := by
  unfold checked_initialise terminal_initialise
  simp only
  rw [checked_initialise_rows_eq _ VGA_HEIGHT 0 _ (by simp only [VGA_HEIGHT]; omega)]

/-- The loops of `terminal_initialise` never change a cell at an offset of
2000 or more. -/
theorem terminal_initialise_outside (s : Terminal) (k : Nat) (hk : 2000 ≤ k) :
    (terminal_initialise s).terminal_buffer k = s.terminal_buffer k := by
  simp only [terminal_initialise]
  rw [initialise_rows_spec _ VGA_HEIGHT 0 _ k (by simp only [VGA_HEIGHT]; omega)]
  have h2 : ¬ (0 * 80 ≤ k ∧ k < (0 + VGA_HEIGHT) * 80) := by
    simp only [VGA_HEIGHT]; omega
  rw [if_neg h2]

theorem checked_writestring_eq (data : List Int) (s : Terminal) (h : cursorInRange s) :
    checked_writestring data s = terminal_writestring data s := by
  unfold checked_writestring terminal_writestring
  cases strlen data with
  | none => rfl
  | some size => exact checked_write_loop_eq data size 0 s h

/-- C14: under the preconditions every store of every operation lands inside
the screen.  For `x < 80` and `y < 25` the offset `terminal_putentryat`
computes is `y * 80 + x < 2000`, without wrap-around modulo `2 ^ 32`, and the
guarded variant succeeds with the same result.  From a state with the cursor
in range, `terminal_putchar`, `terminal_write` (any bytes, any size) and
`terminal_writestring` leave every cell at an offset of 2000 or more
untouched, their guarded variants give the same result as the unguarded ones,
`terminal_write` of a whole byte sequence finishes and `terminal_writestring`
of a sequence holding a zero byte finishes.  From any state,
`terminal_initialise` leaves every cell at an offset of 2000 or more
untouched and its guarded variant succeeds with the same result;
`terminal_setcolour` stores into no cell. -/
theorem stores_stay_inside_screen (s : Terminal) (h : cursorInRange s) :
    (∀ (c : Int) (a x y : Nat), x < 80 → y < 25 →
      (y * VGA_WIDTH + x) % 2 ^ 32 = y * 80 + x ∧
      y * 80 + x < 2000 ∧
      checked_putentryat c a x y s = some (terminal_putentryat c a x y s) ∧
      ∀ k, k ≠ y * 80 + x →
        (terminal_putentryat c a x y s).terminal_buffer k = s.terminal_buffer k) ∧
    (∀ c : Int,
      checked_putchar c s = some (terminal_putchar c s) ∧
      ∀ k, 2000 ≤ k → (terminal_putchar c s).terminal_buffer k = s.terminal_buffer k) ∧
    (∀ (data : List Int) (size : Nat),
      checked_write data size s = terminal_write data size s ∧
      ∀ t, terminal_write data size s = some t →
        ∀ k, 2000 ≤ k → t.terminal_buffer k = s.terminal_buffer k) ∧
    (∀ data : List Int, ∃ t,
      terminal_write data data.length s = some t ∧
      checked_write data data.length s = some t) ∧
    (∀ u : Terminal,
      checked_initialise u = some (terminal_initialise u) ∧
      ∀ k, 2000 ≤ k → (terminal_initialise u).terminal_buffer k = u.terminal_buffer k) ∧
    (∀ (v : Nat) (u : Terminal) (k : Nat),
      (terminal_setcolour v u).terminal_buffer k = u.terminal_buffer k) ∧
    (∀ data : List Int,
      checked_writestring data s = terminal_writestring data s ∧
      ∀ t, terminal_writestring data s = some t →
        ∀ k, 2000 ≤ k → t.terminal_buffer k = s.terminal_buffer k) ∧
    (∀ data : List Int, (0 : Int) ∈ data → ∃ t,
      terminal_writestring data s = some t ∧
      checked_writestring data s = some t) := by
  refine ⟨?_, ?_, ?_, ?_, ?_, ?_, ?_, ?_⟩
  · intro c a x y hx hy
    have hlt : (y * VGA_WIDTH + x) % 2 ^ 32 = y * 80 + x := by
      simp only [VGA_WIDTH]; exact Nat.mod_eq_of_lt (by omega)
    refine ⟨hlt, by omega, checked_putentryat_eq c a x y s hx hy, ?_⟩
    intro k hk
    simp only [terminal_putentryat, hlt]
    exact store_other _ _ _ _ hk
  · intro c
    refine ⟨checked_putchar_eq c s h, ?_⟩
    intro k hk
    exact putchars_outside [c] s h k hk
  · intro data size
    refine ⟨checked_write_loop_eq data size 0 s h, ?_⟩
    intro t ht k hk
    rw [terminal_write_some data size s t ht]
    exact putchars_outside _ s h k hk
  · intro data
    refine ⟨putchars data s, terminal_write_all data s, ?_⟩
    have := checked_write_loop_eq data data.length 0 s h
    unfold checked_write
    rw [this]
    exact terminal_write_all data s
  · intro u
    exact ⟨checked_initialise_eq u, terminal_initialise_outside u⟩
  · intro v u k
    rfl
  · intro data
    refine ⟨checked_writestring_eq data s h, ?_⟩
    intro t ht k hk
    obtain ⟨size, _, hw⟩ := terminal_writestring_some data s t ht
    rw [terminal_write_some data size s t hw]
    exact putchars_outside _ s h k hk
  · intro data h0
    obtain ⟨k, hk, hlen, _, _⟩ := strlen_spec data h0
    have hw : terminal_writestring data s = some (putchars (data.take k) s) := by
      unfold terminal_writestring
      rw [hk]
      exact terminal_write_total data k s (by omega)
    refine ⟨putchars (data.take k) s, hw, ?_⟩
    rw [checked_writestring_eq data s h]
    exact hw

theorem stores_stay_inside_screen_witness :
    cursorInRange sampleTerminal ∧ (79 : Nat) < 80 ∧ (24 : Nat) < 25 ∧
    (24 * VGA_WIDTH + 79) % 2 ^ 32 = 24 * 80 + 79 ∧
    24 * 80 + 79 < 2000 ∧
    checked_putentryat 65 7 79 24 sampleTerminal
      = some (terminal_putentryat 65 7 79 24 sampleTerminal) ∧
    checked_putchar 65 sampleTerminal = some (terminal_putchar 65 sampleTerminal) ∧
    checked_write [72, 105] 2 sampleTerminal = terminal_write [72, 105] 2 sampleTerminal ∧
    checked_initialise sampleTerminal = some (terminal_initialise sampleTerminal) ∧
    (terminal_initialise sampleTerminal).terminal_buffer 2079
      = sampleTerminal.terminal_buffer 2079 ∧
    (0 : Int) ∈ ([72, 105, 0] : List Int) ∧
    (∃ t, terminal_writestring [72, 105, 0] sampleTerminal = some t ∧
      checked_writestring [72, 105, 0] sampleTerminal = some t) :=
  ⟨by decide, by decide, by decide,
    ((stores_stay_inside_screen sampleTerminal (by decide)).1 65 7 79 24
      (by decide) (by decide)).1,
    ((stores_stay_inside_screen sampleTerminal (by decide)).1 65 7 79 24
      (by decide) (by decide)).2.1,
    ((stores_stay_inside_screen sampleTerminal (by decide)).1 65 7 79 24
      (by decide) (by decide)).2.2.1,
    ((stores_stay_inside_screen sampleTerminal (by decide)).2.1 65).1,
    ((stores_stay_inside_screen sampleTerminal (by decide)).2.2.1 [72, 105] 2).1,
    ((stores_stay_inside_screen sampleTerminal (by decide)).2.2.2.2.1 sampleTerminal).1,
    ((stores_stay_inside_screen sampleTerminal (by decide)).2.2.2.2.1 sampleTerminal).2
      2079 (by decide),
    by decide,
    (stores_stay_inside_screen sampleTerminal (by decide)).2.2.2.2.2.2.2 [72, 105, 0]
      (by decide)⟩

/-! ## Frame of Put Char At and uniform treatment of characters -/

/-- C15: for in-range coordinates `(x, y)`, `terminal_putentryat` leaves the
cursor row, the cursor column and the current attribute unchanged, and every
cell at in-range coordinates `(x2, y2)` different from `(x, y)` keeps its
value, because such coordinates have a different offset `y2 * 80 + x2`. -/
theorem terminal_putentryat_frame (s : Terminal) (c : Int) (a x y : Nat)
    (hx : x < 80) (hy : y < 25) :
    (terminal_putentryat c a x y s).terminal_row = s.terminal_row ∧
    (terminal_putentryat c a x y s).terminal_column = s.terminal_column ∧
    (terminal_putentryat c a x y s).terminal_colour = s.terminal_colour ∧
    (∀ x2 y2 : Nat, x2 < 80 → y2 < 25 → (x2, y2) ≠ (x, y) →
      y2 * 80 + x2 ≠ y * 80 + x ∧
      (terminal_putentryat c a x y s).terminal_buffer (y2 * 80 + x2)
        = s.terminal_buffer (y2 * 80 + x2)) := by
  have hlt : (y * VGA_WIDTH + x) % 2 ^ 32 = y * 80 + x := by
    simp only [VGA_WIDTH]; exact Nat.mod_eq_of_lt (by omega)
  refine ⟨rfl, rfl, rfl, ?_⟩
  intro x2 y2 hx2 hy2 hne
  have hxy : ¬ (x2 = x ∧ y2 = y) := by
    intro hh; exact hne (by rw [hh.1, hh.2])
  have hoff : y2 * 80 + x2 ≠ y * 80 + x := by omega
  refine ⟨hoff, ?_⟩
  simp only [terminal_putentryat, hlt]
  exact store_other _ _ _ _ hoff

theorem terminal_putentryat_frame_witness :
    (5 : Nat) < 80 ∧ (3 : Nat) < 25 ∧
    (terminal_putentryat 65 7 5 3 sampleTerminal).terminal_row
      = sampleTerminal.terminal_row ∧
    (terminal_putentryat 65 7 5 3 sampleTerminal).terminal_column
      = sampleTerminal.terminal_column ∧
    (terminal_putentryat 65 7 5 3 sampleTerminal).terminal_colour
      = sampleTerminal.terminal_colour ∧
    (∀ x2 y2 : Nat, x2 < 80 → y2 < 25 → (x2, y2) ≠ (5, 3) →
      y2 * 80 + x2 ≠ 3 * 80 + 5 ∧
      (terminal_putentryat 65 7 5 3 sampleTerminal).terminal_buffer (y2 * 80 + x2)
        = sampleTerminal.terminal_buffer (y2 * 80 + x2)) :=
  ⟨by decide, by decide,
    terminal_putentryat_frame sampleTerminal 65 7 5 3 (by decide) (by decide)⟩

/-- For a byte-sized attribute the cell of a newline is `0x0A | a << 8`. -/
theorem vga_entry_newline (a : Nat) (ha : a < 256) :
    vga_entry (toUChar 10) a = 0x0A ||| (a <<< 8) := by
  have h10 : toUChar 10 = 10 := by decide
  have h3 : 2 ^ 8 * a + 10 = 2 ^ 8 * a ||| 10 := Nat.mul_add_lt_is_or (by omega) a
  rw [h10, vga_entry_eq_add 10 a (by omega) ha, Nat.shiftLeft_eq, Nat.or_comm,
    Nat.mul_comm a, ← h3]
  omega

/-- C16: `terminal_putchar` treats all characters alike.  From a state with
the cursor in range, `terminal_putchar c1` and `terminal_putchar c2` give the
same cursor and the same attribute, and buffers that agree everywhere except
possibly at the old cursor offset, where they hold `vga_entry c1 attribute`
and `vga_entry c2 attribute`.  A newline (code 10) is stored as the cell
`0x0A | attribute << 8` and advances the row only when the column was 79. -/
theorem terminal_putchar_uninterpreted (s : Terminal) (c1 c2 : Int)
    (h : cursorInRange s) (ha : s.terminal_colour < 256) :
    (terminal_putchar c1 s).terminal_column = (terminal_putchar c2 s).terminal_column ∧
    (terminal_putchar c1 s).terminal_row = (terminal_putchar c2 s).terminal_row ∧
    (terminal_putchar c1 s).terminal_colour = (terminal_putchar c2 s).terminal_colour ∧
    (∀ k, k ≠ s.terminal_row * 80 + s.terminal_column →
      (terminal_putchar c1 s).terminal_buffer k = (terminal_putchar c2 s).terminal_buffer k) ∧
    (terminal_putchar c1 s).terminal_buffer (s.terminal_row * 80 + s.terminal_column)
      = vga_entry (toUChar c1) s.terminal_colour ∧
    (terminal_putchar c2 s).terminal_buffer (s.terminal_row * 80 + s.terminal_column)
      = vga_entry (toUChar c2) s.terminal_colour ∧
    (terminal_putchar 10 s).terminal_buffer (s.terminal_row * 80 + s.terminal_column)
      = 0x0A ||| (s.terminal_colour <<< 8) ∧
    (s.terminal_column ≠ 79 →
      (terminal_putchar 10 s).terminal_row = s.terminal_row ∧
      (terminal_putchar 10 s).terminal_column = s.terminal_column + 1) ∧
    (s.terminal_column = 79 →
      (terminal_putchar 10 s).terminal_column = 0 ∧
      (terminal_putchar 10 s).terminal_row = (s.terminal_row + 1) % 25) := by
  obtain ⟨p1, q1⟩ := terminal_putchar_cursor c1 s h
  obtain ⟨p2, q2⟩ := terminal_putchar_cursor c2 s h
  obtain ⟨pn, qn⟩ := terminal_putchar_cursor 10 s h
  have hoff := (cursorOffset_lt s h).2
  simp only [cursorOffset, VGA_WIDTH] at hoff
  have hbuf : ∀ c : Int, (terminal_putchar c s).terminal_buffer
      = store s.terminal_buffer (s.terminal_row * 80 + s.terminal_column)
          (vga_entry (toUChar c) s.terminal_colour) := by
    intro c
    rw [terminal_putchar_buffer]
    simp only [VGA_WIDTH, hoff]
  obtain ⟨h1, h2⟩ := h
  simp only [VGA_WIDTH, VGA_HEIGHT] at h1 h2
  refine ⟨by rw [p1, p2], by rw [q1, q2], ?_, ?_, ?_, ?_, ?_, ?_, ?_⟩
  · rw [terminal_putchar_colour, terminal_putchar_colour]
  · intro k hk
    rw [hbuf c1, hbuf c2, store_other _ _ _ _ hk, store_other _ _ _ _ hk]
  · rw [hbuf c1, store_same]
  · rw [hbuf c2, store_same]
  · rw [hbuf 10, store_same, vga_entry_newline _ ha]
  · intro hne
    rw [pn, qn]
    have : ¬ (s.terminal_column + 1 = 80) := by omega
    simp only [if_neg this, and_self]
  · intro he
    rw [pn, qn]
    have : s.terminal_column + 1 = 80 := by omega
    simp only [if_pos this, true_and]
    split_ifs <;> omega

theorem terminal_putchar_uninterpreted_witness :
    cursorInRange sampleTerminal ∧ sampleTerminal.terminal_colour < 256 ∧
    (terminal_putchar 10 sampleTerminal).terminal_column
      = (terminal_putchar 65 sampleTerminal).terminal_column ∧
    (terminal_putchar 10 sampleTerminal).terminal_row
      = (terminal_putchar 65 sampleTerminal).terminal_row ∧
    (terminal_putchar 10 sampleTerminal).terminal_buffer
        (sampleTerminal.terminal_row * 80 + sampleTerminal.terminal_column)
      = 0x0A ||| (sampleTerminal.terminal_colour <<< 8) :=
  ⟨by decide, by decide,
    (terminal_putchar_uninterpreted sampleTerminal 10 65 (by decide) (by decide)).1,
    (terminal_putchar_uninterpreted sampleTerminal 10 65 (by decide) (by decide)).2.1,
    (terminal_putchar_uninterpreted sampleTerminal 10 65
      (by decide) (by decide)).2.2.2.2.2.2.1⟩

/-! ## Cursor arithmetic and composition of writes -/

/-- C17: from a state with the cursor in range at linear position
`p = row * 80 + column`, `terminal_write` of a byte sequence of any length `n`
finishes with the cursor at linear position `(p + n) % 2000`, that is at
column `(p + n) % 80` of row `((p + n) / 80) % 25`, whatever the bytes. -/
theorem terminal_write_cursor (s : Terminal) (data : List Int) (h : cursorInRange s) :
    ∃ t, terminal_write data data.length s = some t ∧
      t.terminal_row * 80 + t.terminal_column
        = (s.terminal_row * 80 + s.terminal_column + data.length) % 2000 ∧
      t.terminal_column
        = (s.terminal_row * 80 + s.terminal_column + data.length) % 80 ∧
      t.terminal_row
        = ((s.terminal_row * 80 + s.terminal_column + data.length) / 80) % 25 := by
  have hin := putchars_inRange data s h
  have hoff := putchars_offset data s h
  simp only [cursorInRange, VGA_WIDTH, VGA_HEIGHT] at hin
  simp only [cursorOffset, VGA_WIDTH] at hoff
  refine ⟨putchars data s, terminal_write_all data s, hoff, ?_, ?_⟩ <;> omega

theorem terminal_write_cursor_witness :
    cursorInRange sampleTerminal ∧
    ∃ t, terminal_write (List.replicate 4001 10) (List.replicate 4001 (10 : Int)).length
        sampleTerminal = some t ∧
      t.terminal_row * 80 + t.terminal_column
        = (sampleTerminal.terminal_row * 80 + sampleTerminal.terminal_column
            + (List.replicate 4001 (10 : Int)).length) % 2000 ∧
      t.terminal_column
        = (sampleTerminal.terminal_row * 80 + sampleTerminal.terminal_column
            + (List.replicate 4001 (10 : Int)).length) % 80 ∧
      t.terminal_row
        = ((sampleTerminal.terminal_row * 80 + sampleTerminal.terminal_column
            + (List.replicate 4001 (10 : Int)).length) / 80) % 25 :=
  ⟨by decide, terminal_write_cursor sampleTerminal (List.replicate 4001 10) (by decide)⟩

theorem putchars_append : ∀ (a b : List Int) (s : Terminal),
    putchars (a ++ b) s = putchars b (putchars a s)
  | [], _, _ => rfl
  | c :: rest, b, s => by
    rw [List.cons_append, putchars, putchars, putchars_append rest b]

/-- On a text without zero byte followed by a zero byte, the loop of `strlen`
counts the bytes of the text. -/
theorem strlen_loop_text : ∀ (l rest : List Int) (len : Nat), (∀ c ∈ l, c ≠ 0) →
    strlen_loop (l ++ 0 :: rest) len = some (len + l.length)
  | [], rest, len, _ => by simp [strlen_loop]
  | d :: l, rest, len, h => by
    have hd : d ≠ 0 := h d (List.mem_cons_self d l)
    rw [List.cons_append, strlen_loop, if_pos hd,
      strlen_loop_text l rest (len + 1) (fun c hc => h c (List.mem_cons_of_mem d hc))]
    simp only [List.length_cons]
    congr 1
    omega

/-- The string made of a text without zero byte and its terminator is written
as the bytes of the text. -/
theorem terminal_writestring_text (l : List Int) (s : Terminal) (h : ∀ c ∈ l, c ≠ 0) :
    terminal_writestring (l ++ [0]) s = some (putchars l s) := by
  have hs : strlen (l ++ [0]) = some l.length := by
    have := strlen_loop_text l [] 0 h
    simpa [strlen] using this
  unfold terminal_writestring
  rw [hs]
  simp only
  rw [terminal_write_total (l ++ [0]) l.length s (by simp), List.take_left]

/-- C18: writing composes.  For every state and all byte sequences `a`, `b`,
`terminal_write` of `a ++ b` finishes in exactly the state reached by
`terminal_write` of `a` followed by `terminal_write` of `b`; and for texts
`ta`, `tb` without zero byte, `terminal_writestring` of the terminated text
`ta`, then of the terminated text `tb`, gives the state of one
`terminal_writestring` of the terminated concatenation. -/
theorem terminal_write_append (s : Terminal) (a b : List Int) :
    (∃ t, terminal_write (a ++ b) (a ++ b).length s = some t ∧
      (terminal_write a a.length s).bind (terminal_write b b.length) = some t) ∧
    (∀ ta tb : List Int, (∀ c ∈ ta, c ≠ 0) → (∀ c ∈ tb, c ≠ 0) →
      ∃ t, terminal_writestring (ta ++ tb ++ [0]) s = some t ∧
        (terminal_writestring (ta ++ [0]) s).bind (terminal_writestring (tb ++ [0]))
          = some t) := by
  constructor
  · refine ⟨putchars (a ++ b) s, terminal_write_all (a ++ b) s, ?_⟩
    rw [terminal_write_all a s, Option.some_bind, terminal_write_all b, putchars_append]
  · intro ta tb hta htb
    have htab : ∀ c ∈ ta ++ tb, c ≠ 0 := by
      intro c hc
      rcases List.mem_append.mp hc with h1 | h1
      · exact hta c h1
      · exact htb c h1
    refine ⟨putchars (ta ++ tb) s, terminal_writestring_text (ta ++ tb) s htab, ?_⟩
    rw [terminal_writestring_text ta s hta, Option.some_bind,
      terminal_writestring_text tb _ htb, putchars_append]

theorem terminal_write_append_witness :
    (∀ c ∈ ([72, 105] : List Int), c ≠ 0) ∧ (∀ c ∈ ([33, 10] : List Int), c ≠ 0) ∧
    ∃ t, terminal_writestring ([72, 105] ++ [33, 10] ++ [0]) sampleTerminal = some t ∧
      (terminal_writestring ([72, 105] ++ [0]) sampleTerminal).bind
          (terminal_writestring ([33, 10] ++ [0]))
        = some t :=
  ⟨by decide, by decide,
    (terminal_write_append sampleTerminal [] []).2 [72, 105] [33, 10]
      (by decide) (by decide)⟩

/-- C19: a write of exactly 2000 bytes from a state with the cursor in range
at linear position `p` finishes with the cursor back at the column and row it
started from, and overwrites the whole screen: every offset `k < 2000` holds
`vga_entry data[(k - p) mod 2000] attribute` (the index is written
`(k + 2000 - p) % 2000` in natural numbers). -/
theorem terminal_write_full_screen (s : Terminal) (data : List Int)
    (h : cursorInRange s) (hlen : data.length = 2000) :
    ∃ t, terminal_write data data.length s = some t ∧
      t.terminal_column = s.terminal_column ∧
      t.terminal_row = s.terminal_row ∧
      ∀ k, k < 2000 →
        ∃ c, data[(k + 2000 - (s.terminal_row * 80 + s.terminal_column)) % 2000]? = some c ∧
          t.terminal_buffer k = vga_entry (toUChar c) s.terminal_colour := by
  have hin := putchars_inRange data s h
  have hoff := putchars_offset data s h
  obtain ⟨hb, _⟩ := putchars_buffer data s h (by omega)
  obtain ⟨hp, _⟩ := cursorOffset_lt s h
  have h0 := h
  simp only [cursorInRange, VGA_WIDTH, VGA_HEIGHT] at hin h0
  simp only [cursorOffset, VGA_WIDTH, hlen] at hoff hb hp
  refine ⟨putchars data s, terminal_write_all data s, by omega, by omega, ?_⟩
  intro k hk
  have hi : (k + 2000 - (s.terminal_row * 80 + s.terminal_column)) % 2000 < data.length := by
    omega
  refine ⟨data[(k + 2000 - (s.terminal_row * 80 + s.terminal_column)) % 2000],
    List.getElem?_eq_getElem hi, ?_⟩
  have := hb _ _ (List.getElem?_eq_getElem hi)
  have hk2 : (s.terminal_row * 80 + s.terminal_column
      + (k + 2000 - (s.terminal_row * 80 + s.terminal_column)) % 2000) % 2000 = k := by
    omega
  rw [hk2] at this
  exact this

theorem terminal_write_full_screen_witness :
    cursorInRange sampleTerminal ∧
    ((List.range 2000).map Int.ofNat).length = 2000 ∧
    ∃ t, terminal_write ((List.range 2000).map Int.ofNat)
        ((List.range 2000).map Int.ofNat).length sampleTerminal = some t ∧
      t.terminal_column = sampleTerminal.terminal_column ∧
      t.terminal_row = sampleTerminal.terminal_row ∧
      ∀ k, k < 2000 →
        ∃ c, ((List.range 2000).map Int.ofNat)[(k + 2000
              - (sampleTerminal.terminal_row * 80
                  + sampleTerminal.terminal_column)) % 2000]? = some c ∧
          t.terminal_buffer k = vga_entry (toUChar c) sampleTerminal.terminal_colour :=
  ⟨by decide, by simp,
    terminal_write_full_screen sampleTerminal ((List.range 2000).map Int.ofNat)
      (by decide) (by simp)⟩

/-! ## Characters with the high bit set -/

/-- C20: for every value `c` of the signed `char` parameter
(`-128 ≤ c ≤ 127`) and every attribute byte `a`, the cell stored by
`terminal_putentryat` has low byte `c mod 256` (that is `c` for `c ≥ 0` and
`c + 256` for `c < 0`) and high byte exactly `a`: the conversion to
`unsigned char` does not reach bits 8-15. -/
theorem terminal_putentryat_high_bit (s : Terminal) (c : Int) (a x y : Nat)
    (hlo : -128 ≤ c) (hhi : c ≤ 127) (ha : a < 256) :
    ((terminal_putentryat c a x y s).terminal_buffer ((y * 80 + x) % 2 ^ 32) % 256 : Int)
      = c % 256 ∧
    (0 ≤ c →
      ((terminal_putentryat c a x y s).terminal_buffer ((y * 80 + x) % 2 ^ 32) % 256 : Int)
        = c) ∧
    (c < 0 →
      ((terminal_putentryat c a x y s).terminal_buffer ((y * 80 + x) % 2 ^ 32) % 256 : Int)
        = c + 256) ∧
    (terminal_putentryat c a x y s).terminal_buffer ((y * 80 + x) % 2 ^ 32) / 256 = a ∧
    (terminal_putentryat c a x y s).terminal_buffer ((y * 80 + x) % 2 ^ 32) >>> 8 = a := by
  have hu : toUChar c < 256 := by
    unfold toUChar; omega
  have hcell : (terminal_putentryat c a x y s).terminal_buffer ((y * 80 + x) % 2 ^ 32)
      = toUChar c + 256 * a := by
    simp only [terminal_putentryat, VGA_WIDTH, store_same]
    exact vga_entry_eq_add _ _ hu ha
  have hcast : ((toUChar c : Nat) : Int) = c % 256 := by
    unfold toUChar; omega
  rw [hcell, Nat.shiftRight_eq_div_pow]
  refine ⟨by omega, fun _ => by omega, fun _ => by omega, by omega, by omega⟩

theorem terminal_putentryat_high_bit_witness :
    (-128 : Int) ≤ -1 ∧ (-1 : Int) ≤ 127 ∧ (7 : Nat) < 256 ∧
    ((terminal_putentryat (-1) 7 79 24 sampleTerminal).terminal_buffer
        ((24 * 80 + 79) % 2 ^ 32) % 256 : Int) = -1 % 256 ∧
    (terminal_putentryat (-1) 7 79 24 sampleTerminal).terminal_buffer
        ((24 * 80 + 79) % 2 ^ 32) / 256 = 7 :=
  ⟨by decide, by decide, by decide,
    (terminal_putentryat_high_bit sampleTerminal (-1) 7 79 24
      (by decide) (by decide) (by decide)).1,
    (terminal_putentryat_high_bit sampleTerminal (-1) 7 79 24
      (by decide) (by decide) (by decide)).2.2.2.1⟩

end Kernel
